/-
Verification of the Monte Carlo buy-vs-mine simulation engine of the
btc_mine repository.

The definitions below are a shallow embedding of the JavaScript sources
`src/js/montecarlo.js` and `src/js/utils.js`.  JavaScript numbers are
modelled as real numbers (rationals for the histogram, where every
operation is field arithmetic and comparisons, so that concrete
instances can be settled by `decide`).  Stateful pieces (the unseeded
`Math.random()` stream) are modelled by explicit state passing: the
uniform source is a stream `ℕ → ℚ` together with a cursor, and the
rejection loop `while (u === 0) u = Math.random()` advances the cursor
to the first non-zero draw.
-/
import Mathlib

noncomputable section

/-! ## GBM path simulator (montecarlo.js, `generateGBMPaths`) -/

/-- One value of a simulated GBM path.  `gbmValue S0 mu sigma z t` is the
value `path[t]` produced by the inner loop of `generateGBMPaths` for a row
`z` of the supplied draw matrix: `path[0] = S0` and
`path[t] = path[t-1] * exp((mu - 0.5*sigma*sigma)*dt + sigma*sqrt(dt)*z[t-1])`
with `dt = 1`. -/
def gbmValue (S0 mu sigma : ℝ) (z : ℕ → ℝ) : ℕ → ℝ
  | 0 => S0
  | t + 1 =>
    let dt : ℝ := 1
    gbmValue S0 mu sigma z t *
      Real.exp ((mu - 0.5 * sigma * sigma) * dt + sigma * Real.sqrt dt * z t)

/-- Embedding of `generateGBMPaths(S0, mu, sigma, years, numPaths,
correlatedRandom)`.  The draw matrix is modelled as a function
`corr : ℕ → ℕ → ℝ`; `corr i` is the row `correlatedRandom[i]`.  Each path
is the list `[path[0], ..., path[years]]` built by the source's loop. -/
def generateGBMPaths (S0 mu sigma : ℝ) (years numPaths : ℕ)
    (corr : ℕ → ℕ → ℝ) : List (List ℝ) :=
  (List.range numPaths).map fun i =>
    (List.range (years + 1)).map fun t => gbmValue S0 mu sigma (corr i) t

/-! ## Drift calibration (montecarlo.js, `runMonteCarloSimulation`) -/

/-- The drift-calibration formula of `runMonteCarloSimulation`:
`Math.log(targetPrice / startPrice) / projectionYears + 0.5 * volatility * volatility`. -/
def calibratedDrift (startPrice targetPrice : ℝ) (projectionYears : ℕ)
    (volatility : ℝ) : ℝ :=
  Real.log (targetPrice / startPrice) / (projectionYears : ℝ) +
    0.5 * volatility * volatility

/-- The two drift computations of `runMonteCarloSimulation` (lines
computing `btcDrift` and `hashDrift`), one per price series. -/
def mcDrifts (btcStartPrice btcTargetPrice btcVolatility
    hashStartPrice hashTargetPrice hashVolatility : ℝ)
    (projectionYears : ℕ) : ℝ × ℝ :=
  (calibratedDrift btcStartPrice btcTargetPrice projectionYears btcVolatility,
   calibratedDrift hashStartPrice hashTargetPrice projectionYears hashVolatility)

/-! ## Dual-strategy evaluator (montecarlo.js, `runSimulations`)

The Bitcoin constants fixed at the top of the per-path loop. -/

def BLOCKS_PER_YEAR : ℝ := 52596

def CURRENT_BLOCK_REWARD : ℝ := 3.125

def HALVING_YEAR : ℤ := 2028

def EQUIPMENT_RESIDUAL_PERCENT : ℝ := 0.20

/-- The mining / investment configuration `runSimulations` reads from
`projectData` / `localStorage` before its per-path loop.  The source derives
`isOwnerOperator` from the stored GP/LP split string
(`totalLpCapital === 0 || splitValue === '100-0'`); here it is an input flag.
`gpPercent` is read by the source but only logged, so it is omitted. -/
structure SimParams where
  totalCapex : ℝ
  annualOpex : ℝ
  totalHashratePH : ℝ
  startYear : ℤ
  lpPercent : ℝ
  totalLpCapital : ℝ
  isOwnerOperator : Bool
  networkHashrateEH : ℝ
  difficultyGrowth : ℝ
  uptime : ℝ

/-- Body of the year loop of the mine-strategy branch of `runSimulations`
(`year` is 1-indexed): block reward with the halving step, network share
with difficulty growth, and the BTC mined that year. -/
def minedBtcInYear (p : SimParams) (year : ℕ) : ℝ :=
  let calendarYear : ℤ := p.startYear + year - 1
  let reward := if calendarYear < HALVING_YEAR then CURRENT_BLOCK_REWARD
    else CURRENT_BLOCK_REWARD / 2
  let networkHashratePH := p.networkHashrateEH * 1000
  let difficultyFactor := (1 + p.difficultyGrowth) ^ (year - 1)
  let effectiveHashrate := p.totalHashratePH / difficultyFactor
  let networkShare := effectiveHashrate / networkHashratePH
  networkShare * BLOCKS_PER_YEAR * reward * p.uptime

/-- The accumulator `totalBtcMined` after the loop
`for (year = 1; year <= years; year++)`. -/
def totalBtcMined (p : SimParams) (years : ℕ) : ℝ :=
  ∑ y in Finset.range years, minedBtcInYear p (y + 1)

/-- Buy-strategy branch of the per-path loop of `runSimulations`:
`btcBought = investorCapital / btcPath[0]`,
`btcFinalValue = btcBought * btcPath[years]`,
`buyROI = ((btcFinalValue - investorCapital) / investorCapital) * 100`. -/
def buyROI (investorCapital : ℝ) (years : ℕ) (btcPath : List ℝ) : ℝ :=
  let btcBought := investorCapital / btcPath.getD 0 0
  let btcFinalValue := btcBought * btcPath.getD years 0
  (btcFinalValue - investorCapital) / investorCapital * 100

/-- Mine-strategy branch of the per-path loop of `runSimulations`.  When the
mining data is not configured (`totalHashratePH > 0 && totalCapex > 0`
fails) the sentinel `0` is returned. -/
def mineROI (p : SimParams) (investorCapital : ℝ) (years : ℕ)
    (btcPath : List ℝ) : ℝ :=
  if 0 < p.totalHashratePH ∧ 0 < p.totalCapex then
    let tbm := totalBtcMined p years
    let totalLpBtcEarned := tbm * (p.lpPercent / 100)
    let investorBtcEarned := if p.isOwnerOperator then tbm
      else investorCapital / p.totalLpCapital * totalLpBtcEarned
    let btcValue := investorBtcEarned * btcPath.getD years 0
    let equipmentResidual := p.totalCapex * EQUIPMENT_RESIDUAL_PERCENT
    let investorEquipmentShare := investorCapital / p.totalCapex * equipmentResidual
    let totalValue := btcValue + investorEquipmentShare
    let investorOpexShare := if p.isOwnerOperator then p.annualOpex * years
      else investorCapital / p.totalCapex * (p.annualOpex * years)
    let netReturn := totalValue - investorCapital - investorOpexShare
    netReturn / investorCapital * 100
  else 0

/-- One record of the `scenarios` array (first ten paths, kept verbatim for
illustrative display).  The hash-price path is read only here. -/
structure Scenario where
  run : ℕ
  btcStart : ℝ
  btcEnd : ℝ
  hashStart : ℝ
  hashEnd : ℝ
  buyROI : ℝ
  mineROI : ℝ
  winner : String
  margin : ℝ

/-- The collections `runSimulations` returns (the echoed `parameters`
record, which merely repeats inputs, is omitted). -/
structure SimResults where
  buyResults : List ℝ
  mineResults : List ℝ
  scenarios : List Scenario

/-- The per-path loop `for (i = 0; i < btcPaths.length; i++)` of
`runSimulations`, with the loop index threaded explicitly. -/
def simLoop (p : SimParams) (investorCapital : ℝ) (years : ℕ)
    (hashPaths : List (List ℝ)) : List (List ℝ) → ℕ → SimResults
  | [], _ => ⟨[], [], []⟩
  | btcPath :: rest, i =>
    let hashPath := hashPaths.getD i []
    let b := buyROI investorCapital years btcPath
    let m := mineROI p investorCapital years btcPath
    let r := simLoop p investorCapital years hashPaths rest (i + 1)
    ⟨b :: r.buyResults, m :: r.mineResults,
      if i < 10 then
        ⟨i + 1, btcPath.getD 0 0, btcPath.getD years 0,
          hashPath.getD 0 0, hashPath.getD years 0, b, m,
          if b > m then "Buy" else "Mine", |b - m|⟩ :: r.scenarios
      else r.scenarios⟩

/-- Embedding of `runSimulations(btcPaths, hashPaths, investorCapital, years)`
with the storage-loaded configuration passed explicitly as `p`. -/
def runSimulations (btcPaths hashPaths : List (List ℝ))
    (investorCapital : ℝ) (years : ℕ) (p : SimParams) : SimResults :=
  simLoop p investorCapital years hashPaths btcPaths 0

/-! ## Network-share utilities (utils.js) -/

/-- Embedding of `getBlockReward(year)` from utils.js: the block reward
halves at the configured halving year. -/
def getBlockReward (year : ℤ) : ℝ :=
  if year < HALVING_YEAR then CURRENT_BLOCK_REWARD else CURRENT_BLOCK_REWARD / 2

/-- Embedding of `calculateNetworkShare(minerHashratePH, networkHashrateEH,
difficultyGrowth, year)` from utils.js. -/
def calculateNetworkShare (minerHashratePH networkHashrateEH difficultyGrowth : ℝ)
    (year : ℕ) : ℝ :=
  let networkHashratePH := networkHashrateEH * 1000
  let difficultyFactor := (1 + difficultyGrowth) ^ (year - 1)
  let effectiveHashrate := minerHashratePH / difficultyFactor
  effectiveHashrate / networkHashratePH

/-- The error kinds named by the specification (§7).  No error of either
kind is ever constructed by the source. -/
inductive MCError where
  | invalidParameter
  | degenerateDistribution

/-- The network-share computation seen as a fallible computation, as the
specification's numeric policy describes it.  The source has no failure
path: it performs the divisions unconditionally, so the embedding always
returns `Except.ok`. -/
def calculateNetworkShareE (minerHashratePH networkHashrateEH difficultyGrowth : ℝ)
    (year : ℕ) : Except MCError ℝ :=
  Except.ok (calculateNetworkShare minerHashratePH networkHashrateEH
    difficultyGrowth year)

/-! ## The specification's wording of the mine-strategy return (§4.4, §4.5)

The following definitions transcribe the specification's formulas, to be
compared with the source-derived `mineROI`. -/

/-- The investor's profit-share fraction: `100%` for an owner-operator,
otherwise the investor's fraction of the LP capital pool times the LP
percentage (source lines computing `investorProfitSharePercent`, divided
by 100). -/
def specProfitShareFraction (p : SimParams) (investorCapital : ℝ) : ℝ :=
  if p.isOwnerOperator then 1
  else investorCapital / p.totalLpCapital * (p.lpPercent / 100)

/-- Total BTC mined over the horizon as §4.4 of the specification words it:
`networkShare(y) * blocksPerYear * blockReward(startYear + y - 1) * uptime`
summed over `y = 1..horizon`, written with the utils.js functions. -/
def specTotalBtcMined (p : SimParams) (years : ℕ) : ℝ :=
  ∑ y in Finset.range years,
    calculateNetworkShare p.totalHashratePH p.networkHashrateEH
        p.difficultyGrowth (y + 1) *
      BLOCKS_PER_YEAR * getBlockReward (p.startYear + (y + 1) - 1) * p.uptime

/-- The mine-strategy return exactly as claim C1 words it: the investor's
BTC share valued at the terminal price, plus the capital-proportional share
of CAPEX times the residual fraction, minus the capital-proportional share
of the accrued OPEX, minus the invested capital, divided by the invested
capital, times 100. -/
def specMineROI (p : SimParams) (investorCapital : ℝ) (years : ℕ)
    (terminalPrice : ℝ) : ℝ :=
  (specTotalBtcMined p years * specProfitShareFraction p investorCapital *
      terminalPrice
    + investorCapital / p.totalCapex * (p.totalCapex * EQUIPMENT_RESIDUAL_PERCENT)
    - investorCapital / p.totalCapex * (p.annualOpex * years)
    - investorCapital) / investorCapital * 100

/-- The mine-strategy return as amended: identical to `specMineROI` except
that an owner-operator bears the full OPEX (`annualOpex * years`), not the
capital-proportional share of it. -/
def specMineROIAmended (p : SimParams) (investorCapital : ℝ) (years : ℕ)
    (terminalPrice : ℝ) : ℝ :=
  (specTotalBtcMined p years * specProfitShareFraction p investorCapital *
      terminalPrice
    + investorCapital / p.totalCapex * (p.totalCapex * EQUIPMENT_RESIDUAL_PERCENT)
    - (if p.isOwnerOperator then p.annualOpex * (years : ℝ)
        else investorCapital / p.totalCapex * (p.annualOpex * years))
    - investorCapital) / investorCapital * 100

/-! ## Statistics engine: histogram (montecarlo.js, `createHistogram`)

The histogram works on the ROI data by field arithmetic and comparisons
only, so here the JavaScript numbers (which are dyadic rationals) are
modelled as rationals, keeping every instance decidable. -/

/-- `Math.min(...data)`.  On the empty spread JavaScript yields `Infinity`;
the histogram is only ever applied to one ROI value per path, so the empty
case (modelled as `0`) is irrelevant to the claims. -/
def listMin : List ℚ → ℚ
  | [] => 0
  | x :: xs => xs.foldl min x

/-- `Math.max(...data)`; empty case as in `listMin`. -/
def listMax : List ℚ → ℚ
  | [] => 0
  | x :: xs => xs.foldl max x

/-- The pair of arrays `createHistogram` returns. -/
structure Histogram where
  bins : List ℚ
  counts : List ℕ

/-- Embedding of `createHistogram(data, numBins)`: the `[min, max]` range is
cut into `numBins` equal-width bins; bin `i` is labelled by its midpoint and
counts the data `d` with `binStart <= d && d < binEnd` — right-open for
every bin, the last included. -/
def createHistogram (data : List ℚ) (numBins : ℕ) : Histogram :=
  let mn := listMin data
  let mx := listMax data
  let binWidth := (mx - mn) / numBins
  { bins := (List.range numBins).map fun i =>
      (mn + i * binWidth + (mn + i * binWidth + binWidth)) / 2,
    counts := (List.range numBins).map fun i =>
      (data.filter fun d =>
        decide (mn + i * binWidth ≤ d ∧ d < mn + i * binWidth + binWidth)).length }

/-! ## Correlated random generator (montecarlo.js, `randomNormal` and
`generateCorrelatedRandoms`)

The unseeded `Math.random()` source is modelled as a stream `us : ℕ → ℚ` of
uniform draws (floats are dyadic rationals) with an explicit cursor. -/

/-- The rejection loop `while (u === 0) u = Math.random()`: starting at
cursor `k`, return the first non-zero draw and the cursor just past it.
The hypothesis `h` states that the loop terminates from every cursor. -/
def nextNonzero (us : ℕ → ℚ) (h : ∀ k, ∃ n, us (k + n) ≠ 0) (k : ℕ) : ℚ × ℕ :=
  let j := Nat.find (h k)
  (us (k + j), k + j + 1)

/-- Embedding of `randomNormal()`: two uniforms `u`, `v` accepted by the
rejection loops, combined by the Box–Muller transform
`Math.sqrt(-2.0 * Math.log(u)) * Math.cos(2.0 * Math.PI * v)`.  Returns the
variate and the advanced cursor. -/
def randomNormal (us : ℕ → ℚ) (h : ∀ k, ∃ n, us (k + n) ≠ 0) (k : ℕ) : ℝ × ℕ :=
  let u := nextNonzero us h k
  let v := nextNonzero us h u.2
  (Real.sqrt (-2 * Real.log (u.1 : ℝ)) * Real.cos (2 * Real.pi * (v.1 : ℝ)), v.2)

/-- The inner `for (t = 0; t < numSteps; t++)` loop of
`generateCorrelatedRandoms`: per cell, two fresh normals `e1`, `e2` and the
Cholesky transform `w1 = a*e1`, `w2 = b*e1 + c*e2` with `a = 1`, `b = rho`,
`c = Math.sqrt(1 - rho*rho)`.  Returns the two rows (`path1`, `path2`) and
the final cursor. -/
def corrCells (us : ℕ → ℚ) (h : ∀ k, ∃ n, us (k + n) ≠ 0) (rho : ℝ) :
    ℕ → ℕ → List ℝ × List ℝ × ℕ
  | 0, k => ([], [], k)
  | n + 1, k =>
    let r1 := randomNormal us h k
    let r2 := randomNormal us h r1.2
    let rest := corrCells us h rho n r2.2
    (1 * r1.1 :: rest.1,
     (rho * r1.1 + Real.sqrt (1 - rho * rho) * r2.1) :: rest.2.1,
     rest.2.2)

/-- The outer `for (i = 0; i < numPaths; i++)` loop of
`generateCorrelatedRandoms`, accumulating the `z1` and `z2` matrices. -/
def corrRows (us : ℕ → ℚ) (h : ∀ k, ∃ n, us (k + n) ≠ 0) (rho : ℝ)
    (numSteps : ℕ) : ℕ → ℕ → List (List ℝ) × List (List ℝ) × ℕ
  | 0, k => ([], [], k)
  | i + 1, k =>
    let row := corrCells us h rho numSteps k
    let rest := corrRows us h rho numSteps i row.2.2
    (row.1 :: rest.1, row.2.1 :: rest.2.1, rest.2.2)

/-- Embedding of `generateCorrelatedRandoms(numPaths, numSteps, rho)`,
started at cursor `0` of the uniform stream. -/
def generateCorrelatedRandoms (us : ℕ → ℚ) (h : ∀ k, ∃ n, us (k + n) ≠ 0)
    (numPaths numSteps : ℕ) (rho : ℝ) : List (List ℝ) × List (List ℝ) :=
  let r := corrRows us h rho numSteps numPaths 0
  (r.1, r.2.1)

/-- The constant stream of uniforms `1/2`, used to witness C5. -/
def halfStream : ℕ → ℚ := fun _ => 1 / 2

/-! ## Theorems -/

/-- Index `i` of `(List.range n).map f`, for `i < n`. -/
theorem getD_map_range {α : Type} (f : ℕ → α) (n i : ℕ) (d : α) (h : i < n) :
    ((List.range n).map f).getD i d = f i := by
  rw [List.getD_eq_getElem?_getD]
  simp [List.getElem?_map, List.getElem?_range, h]

/-- C2: for every starting value, drift, volatility, horizon `≥ 1` and every
row of the supplied draw matrix, `generateGBMPaths` returns a path of length
`horizon + 1`, whose index-0 value is exactly `S0`, and which satisfies the
exact GBM discretization `path[t] = path[t-1] * exp((mu - 0.5*sigma^2)*dt +
sigma*sqrt(dt)*z_t)` with `dt = 1`, `z_t` being the row's `t`-th draw. -/
theorem generateGBMPaths_spec (S0 mu sigma : ℝ) (years numPaths : ℕ)
    (corr : ℕ → ℕ → ℝ) (hy : 1 ≤ years) (i : ℕ) (hi : i < numPaths) :
    ((generateGBMPaths S0 mu sigma years numPaths corr).getD i []).length
        = years + 1 ∧
    ((generateGBMPaths S0 mu sigma years numPaths corr).getD i []).getD 0 0
        = S0 ∧
    ∀ t, 1 ≤ t → t ≤ years →
      ((generateGBMPaths S0 mu sigma years numPaths corr).getD i []).getD t 0
        = ((generateGBMPaths S0 mu sigma years numPaths corr).getD i []).getD (t - 1) 0 *
            Real.exp ((mu - 0.5 * sigma * sigma) * 1 +
              sigma * Real.sqrt 1 * corr i (t - 1)) := by
  have hrow : (generateGBMPaths S0 mu sigma years numPaths corr).getD i []
      = (List.range (years + 1)).map fun t => gbmValue S0 mu sigma (corr i) t := by
    unfold generateGBMPaths
    exact getD_map_range _ _ _ _ hi
  rw [hrow]
  refine ⟨by simp, ?_, ?_⟩
  · rw [getD_map_range _ _ _ _ (Nat.succ_pos years)]
    rfl
  · intro t ht1 ht2
    obtain ⟨s, rfl⟩ : ∃ s, t = s + 1 := ⟨t - 1, (Nat.succ_pred_eq_of_pos ht1).symm⟩
    rw [getD_map_range _ _ _ _ (by omega : s + 1 < years + 1),
      getD_map_range _ _ _ _ (by omega : s + 1 - 1 < years + 1)]
    simp only [Nat.add_sub_cancel]
    rfl

/-- Witness for C2 at a concrete instance. -/
theorem generateGBMPaths_spec_witness :
    ((1 ≤ 1 ∧ 0 < 1) ∧
      ((generateGBMPaths 100 0 0 1 1 fun _ _ => 0).getD 0 []).length = 1 + 1 ∧
      ((generateGBMPaths 100 0 0 1 1 fun _ _ => 0).getD 0 []).getD 0 0 = 100 ∧
      ∀ t, 1 ≤ t → t ≤ 1 →
        ((generateGBMPaths 100 0 0 1 1 fun _ _ => 0).getD 0 []).getD t 0
          = ((generateGBMPaths 100 0 0 1 1 fun _ _ => 0).getD 0 []).getD (t - 1) 0 *
              Real.exp ((0 - 0.5 * 0 * 0) * 1 + 0 * Real.sqrt 1 * 0)) := by
  constructor
  · exact ⟨le_refl 1, Nat.one_pos⟩
  · exact generateGBMPaths_spec 100 0 0 1 1 (fun _ _ => 0) (le_refl 1) 0 Nat.one_pos

/-- C3: the calibrated drift computed for each of the two price series
equals `ln(target/start) / horizon + 0.5 * volatility^2`. -/
theorem mcDrifts_formula (bs bt bv hs ht hv : ℝ) (years : ℕ)
    (hbs : 0 < bs) (hbt : 0 < bt) (hhs : 0 < hs) (hht : 0 < ht)
    (hy : 1 ≤ years) :
    (mcDrifts bs bt bv hs ht hv years).1
        = Real.log (bt / bs) / (years : ℝ) + 0.5 * bv ^ 2 ∧
    (mcDrifts bs bt bv hs ht hv years).2
        = Real.log (ht / hs) / (years : ℝ) + 0.5 * hv ^ 2 := by
  constructor <;> · unfold mcDrifts calibratedDrift; ring

theorem simLoop_buyResults (p : SimParams) (c : ℝ) (years : ℕ)
    (hashPaths : List (List ℝ)) :
    ∀ (l : List (List ℝ)) (i : ℕ),
      (simLoop p c years hashPaths l i).buyResults = l.map (buyROI c years)
  | [], _ => rfl
  | _ :: rest, i => by
    simp [simLoop, simLoop_buyResults p c years hashPaths rest (i + 1)]

theorem simLoop_mineResults (p : SimParams) (c : ℝ) (years : ℕ)
    (hashPaths : List (List ℝ)) :
    ∀ (l : List (List ℝ)) (i : ℕ),
      (simLoop p c years hashPaths l i).mineResults = l.map (mineROI p c years)
  | [], _ => rfl
  | _ :: rest, i => by
    simp [simLoop, simLoop_mineResults p c years hashPaths rest (i + 1)]

/-! ## C4: the zero-volatility end-to-end scenario -/

/-- With volatility zero every GBM value degenerates to deterministic
compound growth. -/
theorem gbmValue_sigma_zero (S0 mu : ℝ) (z : ℕ → ℝ) :
    ∀ t : ℕ, gbmValue S0 mu 0 z t = S0 * Real.exp (mu * t)
  | 0 => by simp [gbmValue]
  | t + 1 => by
    have ih := gbmValue_sigma_zero S0 mu z t
    simp only [gbmValue, ih]
    rw [show (mu - 0.5 * 0 * 0) * 1 + 0 * Real.sqrt 1 * z t = mu by ring]
    push_cast
    rw [show mu * ((t : ℝ) + 1) = mu * t + mu by ring, Real.exp_add]
    ring

/-- C4: with volatility `0` and the drift calibrated for start `50000`,
target `150000`, horizon `5`, every generated path collapses to the
deterministic sequence `S0 * exp(mu * t)` and every path's buy-strategy ROI
equals exactly `(150000/50000 - 1) * 100 = 200`, for every path count and
every positive invested capital. -/
theorem sigmaZero_buyROI_200 (numPaths : ℕ) (capital : ℝ) (corr : ℕ → ℕ → ℝ)
    (hcap : 0 < capital) :
    ∀ path ∈ generateGBMPaths 50000 (calibratedDrift 50000 150000 5 0) 0 5
        numPaths corr,
      (∀ t, t ≤ 5 →
        path.getD t 0 = 50000 * Real.exp (calibratedDrift 50000 150000 5 0 * t)) ∧
      buyROI capital 5 path = 200 := by
  intro path hmem
  rw [generateGBMPaths, List.mem_map] at hmem
  obtain ⟨i, -, rfl⟩ := hmem
  set mu := calibratedDrift 50000 150000 5 0 with hmu
  have hval : ∀ t, t ≤ 5 →
      ((List.range (5 + 1)).map fun t => gbmValue 50000 mu 0 (corr i) t).getD t 0
        = 50000 * Real.exp (mu * t) := by
    intro t ht
    rw [getD_map_range _ _ _ _ (by omega), gbmValue_sigma_zero]
  refine ⟨hval, ?_⟩
  have hmu5 : mu * (5 : ℕ) = Real.log 3 := by
    rw [hmu]
    unfold calibratedDrift
    rw [show (150000 : ℝ) / 50000 = 3 by norm_num]
    push_cast
    ring
  have h0 : ((List.range (5 + 1)).map fun t => gbmValue 50000 mu 0 (corr i) t).getD 0 0
      = 50000 := by
    rw [hval 0 (by omega)]
    simp
  have h5 : ((List.range (5 + 1)).map fun t => gbmValue 50000 mu 0 (corr i) t).getD 5 0
      = 150000 := by
    rw [hval 5 (by omega), hmu5, Real.exp_log (by norm_num)]
    norm_num
  rw [buyROI]
  rw [h0, h5]
  field_simp
  ring

/-- Witness for C4 at a concrete instance. -/
theorem sigmaZero_buyROI_200_witness :
    ((0 : ℝ) < 1 ∧
      ((generateGBMPaths 50000 (calibratedDrift 50000 150000 5 0) 0 5 1
          fun _ _ => 0).getD 0 [])
        ∈ generateGBMPaths 50000 (calibratedDrift 50000 150000 5 0) 0 5 1
            fun _ _ => 0) ∧
    buyROI 1 5 ((generateGBMPaths 50000 (calibratedDrift 50000 150000 5 0) 0 5 1
        fun _ _ => 0).getD 0 []) = 200 := by
  have hmem : ((generateGBMPaths 50000 (calibratedDrift 50000 150000 5 0) 0 5 1
      fun _ _ => 0).getD 0 [])
      ∈ generateGBMPaths 50000 (calibratedDrift 50000 150000 5 0) 0 5 1
          fun _ _ => 0 := by
    rw [generateGBMPaths, show List.range 1 = [0] from rfl]
    simp
  exact ⟨⟨one_pos, hmem⟩,
    (sigmaZero_buyROI_200 1 1 (fun _ _ => 0) one_pos _ hmem).2⟩

/-- Index `i` of `l.map f`, for `i < l.length`. -/
theorem getD_map {α β : Type} (f : α → β) (l : List α) (i : ℕ)
    (hi : i < l.length) (d : β) (d2 : α) :
    (l.map f).getD i d = f (l.getD i d2) := by
  rw [List.getD_eq_getElem?_getD, List.getD_eq_getElem?_getD, List.getElem?_map,
    List.getElem?_eq_getElem hi]
  simp

/-- The inlined year loop of `runSimulations` computes the same total BTC
mined as the specification's formula written with the utils.js functions. -/
theorem totalBtcMined_eq_spec (p : SimParams) (years : ℕ) :
    totalBtcMined p years = specTotalBtcMined p years := by
  unfold totalBtcMined specTotalBtcMined minedBtcInYear calculateNetworkShare
    getBlockReward
  rfl

/-- The mine-strategy ROI of the per-path loop, rewritten as the amended
specification formula. -/
theorem mineROI_eq_specAmended (p : SimParams) (investorCapital : ℝ)
    (years : ℕ) (btcPath : List ℝ)
    (hcapex : 0 < p.totalCapex) (hhash : 0 < p.totalHashratePH) :
    mineROI p investorCapital years btcPath
      = specMineROIAmended p investorCapital years (btcPath.getD years 0) := by
  rw [mineROI, if_pos ⟨hhash, hcapex⟩]
  unfold specMineROIAmended specProfitShareFraction
  rw [← totalBtcMined_eq_spec]
  cases hOO : p.isOwnerOperator with
  | true => simp only [if_true]; ring
  | false => simp only [if_false, Bool.false_eq_true]; ring

/-- C1 (amended): when mining is configured, every path's mine-strategy ROI
returned by `runSimulations` equals the investor's BTC share (total BTC
mined times the investor's profit-share fraction) valued at the path's
terminal price, plus the capital-proportional share of CAPEX times the
residual fraction, minus the investor's OPEX share — the full OPEX for an
owner-operator, the capital-proportional share otherwise — minus the
invested capital, divided by the invested capital, times 100. -/
theorem runSimulations_mineROI_spec (btcPaths hashPaths : List (List ℝ))
    (capital : ℝ) (years : ℕ) (p : SimParams)
    (hcapex : 0 < p.totalCapex) (hhash : 0 < p.totalHashratePH)
    (hlp : p.isOwnerOperator = false → 0 < p.totalLpCapital)
    (i : ℕ) (hi : i < btcPaths.length) :
    (runSimulations btcPaths hashPaths capital years p).mineResults.getD i 0
      = specMineROIAmended p capital years ((btcPaths.getD i []).getD years 0) := by
  rw [runSimulations, simLoop_mineResults, getD_map _ _ _ hi 0 []]
  exact mineROI_eq_specAmended p capital years _ hcapex hhash

/-- Counterexample to C1 as stated: for an owner-operator whose capital is
half the CAPEX, the code subtracts the full OPEX while the claim's formula
subtracts only the capital-proportional share. -/
theorem runSimulations_mineROI_spec_counterexample :
    (runSimulations [[1, 0]] [[1, 0]] 100 1
        ⟨200, 10, 1, 2026, 60, 0, true, 1, 0, 1⟩).mineResults.getD 0 0
      ≠ specMineROI ⟨200, 10, 1, 2026, 60, 0, true, 1, 0, 1⟩ 100 1
          (([1, 0] : List ℝ).getD 1 0) := by
  have hL : (runSimulations [[1, 0]] [[1, 0]] 100 1
      ⟨200, 10, 1, 2026, 60, 0, true, 1, 0, 1⟩).mineResults.getD 0 0 = -90 := by
    rw [runSimulations, simLoop_mineResults]
    norm_num [mineROI, totalBtcMined, minedBtcInYear, BLOCKS_PER_YEAR,
      CURRENT_BLOCK_REWARD, HALVING_YEAR, EQUIPMENT_RESIDUAL_PERCENT,
      Finset.sum_range_succ]
  have hR : specMineROI ⟨200, 10, 1, 2026, 60, 0, true, 1, 0, 1⟩ 100 1
      (([1, 0] : List ℝ).getD 1 0) = -85 := by
    norm_num [specMineROI, specTotalBtcMined, specProfitShareFraction,
      calculateNetworkShare, getBlockReward, BLOCKS_PER_YEAR,
      CURRENT_BLOCK_REWARD, HALVING_YEAR, EQUIPMENT_RESIDUAL_PERCENT,
      Finset.sum_range_succ]
  rw [hL, hR]
  norm_num

/-- Witness for the amended C1 at a concrete non-owner-operator instance. -/
theorem runSimulations_mineROI_spec_witness :
    ((0 : ℝ) < 200 ∧ (0 : ℝ) < 1 ∧
      ((⟨200, 10, 1, 2026, 60, 50, false, 1, 0, 1⟩ : SimParams).isOwnerOperator
          = false → (0 : ℝ) < 50) ∧ 0 < ([[1, 2]] : List (List ℝ)).length) ∧
    (runSimulations [[1, 2]] [[3, 4]] 100 1
        ⟨200, 10, 1, 2026, 60, 50, false, 1, 0, 1⟩).mineResults.getD 0 0
      = specMineROIAmended ⟨200, 10, 1, 2026, 60, 50, false, 1, 0, 1⟩ 100 1
          ((([[1, 2]] : List (List ℝ)).getD 0 []).getD 1 0) := by
  refine ⟨⟨by norm_num, by norm_num, fun _ => by norm_num, by norm_num⟩, ?_⟩
  exact runSimulations_mineROI_spec [[1, 2]] [[3, 4]] 100 1
    ⟨200, 10, 1, 2026, 60, 50, false, 1, 0, 1⟩ (by norm_num) (by norm_num)
    (fun _ => by norm_num) 0 (by norm_num)

/-- C7: when the mining parameters are absent or zero, every path's
mine-strategy ROI is the sentinel `0`, while the buy-strategy ROI is still
computed from the path's starting and terminal prices for every path. -/
theorem runSimulations_sentinel (btcPaths hashPaths : List (List ℝ))
    (capital : ℝ) (years : ℕ) (p : SimParams)
    (hbad : p.totalCapex ≤ 0 ∨ p.totalHashratePH ≤ 0) :
    (runSimulations btcPaths hashPaths capital years p).mineResults
        = btcPaths.map (fun _ => 0) ∧
    (runSimulations btcPaths hashPaths capital years p).buyResults
        = btcPaths.map (fun path =>
            (capital / path.getD 0 0 * path.getD years 0 - capital)
              / capital * 100) := by
  constructor
  · rw [runSimulations, simLoop_mineResults]
    refine List.map_congr_left fun path _ => ?_
    rw [mineROI, if_neg]
    rintro ⟨hh, hc⟩
    rcases hbad with h1 | h1 <;> linarith
  · rw [runSimulations, simLoop_buyResults]
    rfl

/-- Witness for C7 at a concrete instance. -/
theorem runSimulations_sentinel_witness :
    (((⟨0, 0, 0, 2026, 60, 0, true, 600, 0.05, 0.96⟩ : SimParams).totalCapex ≤ 0 ∨
        (⟨0, 0, 0, 2026, 60, 0, true, 600, 0.05, 0.96⟩ : SimParams).totalHashratePH ≤ 0) ∧
      (runSimulations [[2, 4]] [[1, 1]] 100 1
          ⟨0, 0, 0, 2026, 60, 0, true, 600, 0.05, 0.96⟩).mineResults
          = ([[2, 4]] : List (List ℝ)).map (fun _ => 0) ∧
      (runSimulations [[2, 4]] [[1, 1]] 100 1
          ⟨0, 0, 0, 2026, 60, 0, true, 600, 0.05, 0.96⟩).buyResults
          = ([[2, 4]] : List (List ℝ)).map (fun path =>
              ((100 : ℝ) / path.getD 0 0 * path.getD 1 0 - 100) / 100 * 100)) := by
  refine ⟨Or.inl (by norm_num), ?_⟩
  exact runSimulations_sentinel [[2, 4]] [[1, 1]] 100 1
    ⟨0, 0, 0, 2026, 60, 0, true, 600, 0.05, 0.96⟩ (Or.inl (by norm_num))

/-- C10: two runs of `runSimulations` on the same BTC paths, capital,
horizon and configuration but arbitrarily different hash-price paths return
identical `buyResults` and identical `mineResults`: the hash-price series
is read only into the retained illustrative `scenarios`. -/
theorem runSimulations_hashPaths_noninterference (btcPaths hashA hashB : List (List ℝ))
    (capital : ℝ) (years : ℕ) (p : SimParams) :
    (runSimulations btcPaths hashA capital years p).buyResults
        = (runSimulations btcPaths hashB capital years p).buyResults ∧
    (runSimulations btcPaths hashA capital years p).mineResults
        = (runSimulations btcPaths hashB capital years p).mineResults := by
  rw [runSimulations, runSimulations, simLoop_buyResults, simLoop_buyResults,
    simLoop_mineResults, simLoop_mineResults]
  exact ⟨rfl, rfl⟩

/-- Counterexample to C6 as stated: at a non-positive network hashrate the
network-share computation does not fail with a
`DegenerateDistributionError`; it performs the division anyway. -/
theorem calculateNetworkShareE_counterexample :
    calculateNetworkShareE 1 0 0 1 ≠ Except.error MCError.degenerateDistribution := by
  simp [calculateNetworkShareE]

/-- C6 (amended): when the network hashrate or the difficulty factor is
non-positive, the mined-BTC computation does not fail — the source has no
`DegenerateDistributionError` — and unconditionally returns the quotient
(in JavaScript, propagating `Infinity`/`NaN`). -/
theorem calculateNetworkShareE_no_error (minerHashratePH networkHashrateEH
    difficultyGrowth : ℝ) (year : ℕ)
    (hbad : networkHashrateEH ≤ 0 ∨ (1 + difficultyGrowth) ^ (year - 1) ≤ 0) :
    calculateNetworkShareE minerHashratePH networkHashrateEH difficultyGrowth year
      = Except.ok (calculateNetworkShare minerHashratePH networkHashrateEH
          difficultyGrowth year) := rfl

/-- Witness for the amended C6 at a concrete instance. -/
theorem calculateNetworkShareE_no_error_witness :
    ((0 : ℝ) ≤ 0 ∨ (1 + (0 : ℝ)) ^ (1 - 1) ≤ 0) ∧
    calculateNetworkShareE 1 0 0 1 = Except.ok (calculateNetworkShare 1 0 0 1) :=
  ⟨Or.inl le_rfl, calculateNetworkShareE_no_error 1 0 0 1 (Or.inl le_rfl)⟩

/-- Counterexample to C9 as stated: at year `1` the difficulty factor is
`(1+g)^0 = 1`, so the network share does not strictly decrease when the
difficulty-growth rate rises from `0` to `1`. -/
theorem calculateNetworkShare_year1_counterexample :
    ¬ calculateNetworkShare 1 1 1 1 < calculateNetworkShare 1 1 0 1 := by
  norm_num [calculateNetworkShare]

/-- C9 (amended): for positive miner and network hashrates and every year
`y ≥ 2`, `calculateNetworkShare` is strictly decreasing in the
difficulty-growth rate over non-negative growth rates. -/
theorem calculateNetworkShare_strictAnti (h N g1 g2 : ℝ) (y : ℕ)
    (hh : 0 < h) (hN : 0 < N) (hy : 2 ≤ y) (hg1 : 0 ≤ g1) (hlt : g1 < g2) :
    calculateNetworkShare h N g2 y < calculateNetworkShare h N g1 y := by
  unfold calculateNetworkShare
  have hM : (0 : ℝ) < N * 1000 := by positivity
  have hA1 : (0 : ℝ) < (1 + g1) ^ (y - 1) := by positivity
  have hpow : (1 + g1) ^ (y - 1) < (1 + g2) ^ (y - 1) :=
    pow_lt_pow_left (by linarith) (by linarith) (by omega)
  simp only [div_div]
  exact div_lt_div_of_pos_left hh (by positivity)
    (mul_lt_mul_of_pos_right hpow hM)

/-- Witness for the amended C9 at a concrete instance. -/
theorem calculateNetworkShare_strictAnti_witness :
    ((0 : ℝ) < 1 ∧ (0 : ℝ) < 1 ∧ 2 ≤ 2 ∧ (0 : ℝ) ≤ 0 ∧ (0 : ℝ) < 1) ∧
    calculateNetworkShare 1 1 1 2 < calculateNetworkShare 1 1 0 2 := by
  refine ⟨⟨by norm_num, by norm_num, le_refl 2, le_refl 0, by norm_num⟩, ?_⟩
  exact calculateNetworkShare_strictAnti 1 1 0 1 2 (by norm_num) (by norm_num)
    (le_refl 2) (le_refl 0) (by norm_num)

theorem foldl_min_le_init : ∀ (l : List ℚ) (a : ℚ), l.foldl min a ≤ a
  | [], _ => le_refl _
  | b :: l, a => (foldl_min_le_init l (min a b)).trans (min_le_left a b)

theorem foldl_min_le_mem : ∀ (l : List ℚ) (a x : ℚ), x ∈ l → l.foldl min a ≤ x
  | b :: l, a, x, hx => by
    rcases List.mem_cons.1 hx with rfl | hx
    · exact (foldl_min_le_init l (min a x)).trans (min_le_right a x)
    · exact foldl_min_le_mem l (min a b) x hx

theorem init_le_foldl_max : ∀ (l : List ℚ) (a : ℚ), a ≤ l.foldl max a
  | [], _ => le_refl _
  | b :: l, a => (le_max_left a b).trans (init_le_foldl_max l (max a b))

theorem mem_le_foldl_max : ∀ (l : List ℚ) (a x : ℚ), x ∈ l → x ≤ l.foldl max a
  | b :: l, a, x, hx => by
    rcases List.mem_cons.1 hx with rfl | hx
    · exact (le_max_right a x).trans (init_le_foldl_max l (max a x))
    · exact mem_le_foldl_max l (max a b) x hx

theorem listMin_le (data : List ℚ) (x : ℚ) (hx : x ∈ data) : listMin data ≤ x := by
  cases data with
  | nil => cases hx
  | cons a l =>
    rcases List.mem_cons.1 hx with rfl | hx
    · exact foldl_min_le_init l x
    · exact foldl_min_le_mem l a x hx

theorem le_listMax (data : List ℚ) (x : ℚ) (hx : x ∈ data) : x ≤ listMax data := by
  cases data with
  | nil => cases hx
  | cons a l =>
    rcases List.mem_cons.1 hx with rfl | hx
    · exact init_le_foldl_max l x
    · exact mem_le_foldl_max l a x hx

theorem sum_map_range_nat (f : ℕ → ℕ) : ∀ n : ℕ,
    ((List.range n).map f).sum = ∑ i in Finset.range n, f i
  | 0 => by simp
  | n + 1 => by
    rw [List.range_succ]
    simp [sum_map_range_nat f n, Finset.sum_range_succ]

/-- A datum `d` of `[mn, mx]` lies in exactly one of the `nB` right-open
bins when `d < mx`, and in none when `d = mx` (in particular, in none when
`mn = mx` and every bin is the empty interval `[mn, mn)`). -/
theorem bin_hit_count (mn mx : ℚ) (nB : ℕ) (hn : 0 < nB) (hle : mn ≤ mx)
    (d : ℚ) (hd1 : mn ≤ d) (hd2 : d ≤ mx) :
    (∑ i in Finset.range nB,
      if mn + i * ((mx - mn) / nB) ≤ d ∧
          d < mn + i * ((mx - mn) / nB) + (mx - mn) / nB
      then 1 else 0)
      = if d < mx then (1 : ℕ) else 0 := by
  set w : ℚ := (mx - mn) / nB with hw_def
  have hnQ : (0 : ℚ) < nB := by exact_mod_cast hn
  have hw0 : 0 ≤ w := div_nonneg (by linarith) hnQ.le
  have hnB_w : (nB : ℚ) * w = mx - mn := by
    rw [hw_def]
    field_simp
  by_cases hdx : d < mx
  · rw [if_pos hdx]
    have hw : 0 < w := div_pos (by linarith) hnQ
    set x : ℚ := (d - mn) / w with hx_def
    have hx0 : 0 ≤ x := div_nonneg (by linarith) hw.le
    have hfl0 : 0 ≤ ⌊x⌋ := Int.floor_nonneg.2 hx0
    set i0 : ℕ := ⌊x⌋.toNat with hi0_def
    have hi0_cast : (i0 : ℚ) = (⌊x⌋ : ℚ) := by
      rw [hi0_def]
      exact_mod_cast congrArg (fun z : ℤ => (z : ℚ)) (Int.toNat_of_nonneg hfl0)
    have hxw : x * w = d - mn := div_mul_cancel₀ _ hw.ne'
    have hle : (i0 : ℚ) * w ≤ d - mn := by
      rw [← hxw]
      exact mul_le_mul_of_nonneg_right (hi0_cast.le.trans (Int.floor_le x)) hw.le
    have hgt : d - mn < ((i0 : ℚ) + 1) * w := by
      rw [← hxw]
      refine mul_lt_mul_of_pos_right ?_ hw
      rw [hi0_cast]
      exact_mod_cast Int.lt_floor_add_one x
    have hxnB : x < nB := by
      rw [hx_def, div_lt_iff hw]
      calc d - mn < mx - mn := by linarith
      _ = (nB : ℚ) * w := hnB_w.symm
      _ = nB * w := rfl
    have hi0nB : i0 < nB := by
      have : ⌊x⌋ < (nB : ℤ) := Int.floor_lt.2 (by exact_mod_cast hxnB)
      omega
    rw [Finset.sum_eq_single i0]
    · rw [if_pos ⟨by linarith, by linarith [hgt]⟩]
    · intro j hj hne
      rw [if_neg]
      rintro ⟨h1, h2⟩
      apply hne
      have hjle : (j : ℚ) ≤ x := by
        rw [hx_def, le_div_iff hw]
        linarith
      have hjgt : x < (j : ℚ) + 1 := by
        rw [hx_def, div_lt_iff hw]
        linarith
      have : ⌊x⌋ = (j : ℤ) := Int.floor_eq_iff.2 ⟨by exact_mod_cast hjle,
        by exact_mod_cast hjgt⟩
      omega
    · intro habs
      exact absurd (Finset.mem_range.2 hi0nB) habs
  · rw [if_neg hdx]
    have hdmx : d = mx := le_antisymm hd2 (not_lt.1 hdx)
    apply Finset.sum_eq_zero
    intro i hi
    rw [if_neg]
    rintro ⟨-, h2⟩
    have hile : (i : ℚ) + 1 ≤ nB := by
      exact_mod_cast Nat.succ_le_of_lt (Finset.mem_range.1 hi)
    have : mn + i * w + w ≤ mx := by
      have h3 : ((i : ℚ) + 1) * w ≤ (nB : ℚ) * w :=
        mul_le_mul_of_nonneg_right hile hw0
      rw [hnB_w] at h3
      linarith
    rw [hdmx] at h2
    linarith

/-- Summing the per-bin counts over all bins counts every datum strictly
below the maximum exactly once. -/
theorem countP_bins_sum (mn mx : ℚ) (nB : ℕ) (hn : 0 < nB) (hle : mn ≤ mx) :
    ∀ data : List ℚ, (∀ d ∈ data, mn ≤ d ∧ d ≤ mx) →
      (∑ i in Finset.range nB, data.countP fun d =>
          decide (mn + i * ((mx - mn) / nB) ≤ d ∧
            d < mn + i * ((mx - mn) / nB) + (mx - mn) / nB))
        = data.countP fun d => decide (d < mx)
  | [], _ => by simp
  | d :: rest, hbound => by
    have hd := hbound d (List.mem_cons_self d rest)
    have ih := countP_bins_sum mn mx nB hn hle rest
      fun x hx => hbound x (List.mem_cons_of_mem d hx)
    simp only [List.countP_cons, decide_eq_true_eq]
    rw [Finset.sum_add_distrib, ih]
    congr 1
    exact bin_hit_count mn mx nB hn hle d hd.1 hd.2

theorem listMin_le_listMax (data : List ℚ) : listMin data ≤ listMax data := by
  cases data with
  | nil => exact le_refl 0
  | cons a l =>
    exact (foldl_min_le_init l a).trans (init_le_foldl_max l a)

/-- C8 (amended): `createHistogram` cuts the `[min, max]` range of a data
set into 30 equal-width bins, all right-open (the last included), so the
bin counts sum to the number of data points strictly below the maximum —
points equal to the maximum fall into no bin.  When all values are equal
the bin width is `0` and every bin is empty, so the property covers every
sequence. -/
theorem createHistogram_counts_sum (data : List ℚ) :
    (createHistogram data 30).counts.length = 30 ∧
    (createHistogram data 30).counts.sum
      = (data.filter fun d => decide (d < listMax data)).length := by
  have hc : (createHistogram data 30).counts
      = (List.range 30).map (fun i : ℕ =>
          (data.filter fun d =>
            decide (listMin data +
                (i : ℚ) * ((listMax data - listMin data) / ((30 : ℕ) : ℚ)) ≤ d ∧
              d < listMin data +
                (i : ℚ) * ((listMax data - listMin data) / ((30 : ℕ) : ℚ)) +
                (listMax data - listMin data) / ((30 : ℕ) : ℚ))).length) := rfl
  constructor
  · rw [hc, List.length_map, List.length_range]
  · rw [hc, sum_map_range_nat]
    simp only [← List.countP_eq_length_filter]
    exact countP_bins_sum (listMin data) (listMax data) 30 (by norm_num)
      (listMin_le_listMax data)
      data fun d hd => ⟨listMin_le data d hd, le_listMax data d hd⟩

/-- Counterexample to C8 as stated: on the two data points `{0, 1}` the
last bin `[29/30, 1)` is right-open like every other bin, so the maximum
is never counted and the counts sum to `1`, not to the number of paths. -/
theorem createHistogram_counts_sum_counterexample :
    (createHistogram [0, 1] 30).counts.sum ≠ 2 := by
  have h1 : (createHistogram [0, 1] 30).counts.sum = 1 := by
    simp only [createHistogram, listMin, listMax, List.foldl_cons, List.foldl_nil]
    norm_num [List.range_succ, List.filter_cons, List.filter_nil, min_def, max_def]
  rw [h1]
  norm_num

theorem corrCells_length (us : ℕ → ℚ) (h : ∀ k, ∃ n, us (k + n) ≠ 0) (rho : ℝ) :
    ∀ n k, (corrCells us h rho n k).1.length = n ∧
      (corrCells us h rho n k).2.1.length = n
  | 0, _ => ⟨rfl, rfl⟩
  | n + 1, k => by
    have ih := corrCells_length us h rho n
      (randomNormal us h (randomNormal us h k).2).2
    simp [corrCells, ih.1, ih.2]

theorem corrCells_cell (us : ℕ → ℚ) (h : ∀ k, ∃ n, us (k + n) ≠ 0) (rho : ℝ) :
    ∀ n k t, t < n → ∃ m,
      (corrCells us h rho n k).1.getD t 0 = (randomNormal us h m).1 ∧
      (corrCells us h rho n k).2.1.getD t 0
        = rho * (randomNormal us h m).1 +
            Real.sqrt (1 - rho * rho) *
              (randomNormal us h (randomNormal us h m).2).1
  | n + 1, k, 0, _ => ⟨k, by simp [corrCells], by simp [corrCells]⟩
  | n + 1, k, t + 1, ht => by
    obtain ⟨m, h1, h2⟩ := corrCells_cell us h rho n
      (randomNormal us h (randomNormal us h k).2).2 t (by omega)
    exact ⟨m, by simpa [corrCells] using h1, by simpa [corrCells] using h2⟩

theorem corrRows_length (us : ℕ → ℚ) (h : ∀ k, ∃ n, us (k + n) ≠ 0) (rho : ℝ)
    (numSteps : ℕ) :
    ∀ nP k, (corrRows us h rho numSteps nP k).1.length = nP ∧
      (corrRows us h rho numSteps nP k).2.1.length = nP
  | 0, _ => ⟨rfl, rfl⟩
  | nP + 1, k => by
    have ih := corrRows_length us h rho numSteps nP
      (corrCells us h rho numSteps k).2.2
    simp [corrRows, ih.1, ih.2]

theorem corrRows_mem_length (us : ℕ → ℚ) (h : ∀ k, ∃ n, us (k + n) ≠ 0)
    (rho : ℝ) (numSteps : ℕ) :
    ∀ nP k row, (row ∈ (corrRows us h rho numSteps nP k).1 ∨
        row ∈ (corrRows us h rho numSteps nP k).2.1) →
      row.length = numSteps
  | 0, _, row, hrow => by rcases hrow with hr | hr <;> cases hr
  | nP + 1, k, row, hrow => by
    have hlen := corrCells_length us h rho numSteps k
    rcases hrow with hr | hr <;>
      rcases List.mem_cons.1 hr with rfl | hr
    · exact hlen.1
    · exact corrRows_mem_length us h rho numSteps nP
        (corrCells us h rho numSteps k).2.2 row (Or.inl hr)
    · exact hlen.2
    · exact corrRows_mem_length us h rho numSteps nP
        (corrCells us h rho numSteps k).2.2 row (Or.inr hr)

theorem corrRows_row (us : ℕ → ℚ) (h : ∀ k, ∃ n, us (k + n) ≠ 0) (rho : ℝ)
    (numSteps : ℕ) :
    ∀ nP k i, i < nP → ∃ m,
      (corrRows us h rho numSteps nP k).1.getD i []
          = (corrCells us h rho numSteps m).1 ∧
      (corrRows us h rho numSteps nP k).2.1.getD i []
          = (corrCells us h rho numSteps m).2.1
  | nP + 1, k, 0, _ => ⟨k, by simp [corrRows], by simp [corrRows]⟩
  | nP + 1, k, i + 1, hi => by
    obtain ⟨m, h1, h2⟩ := corrRows_row us h rho numSteps nP
      (corrCells us h rho numSteps k).2.2 i (by omega)
    exact ⟨m, by simpa [corrRows] using h1, by simpa [corrRows] using h2⟩

/-- C5: `generateCorrelatedRandoms` returns two matrices of identical shape
(`numPaths` rows of `numSteps` entries); every `randomNormal` variate is the
Box–Muller transform of two uniforms accepted by the `u = 0` rejection
loops; and each cell holds `z1 = e1` and `z2 = rho*e1 + sqrt(1-rho^2)*e2`
for the two consecutive normals `e1`, `e2` drawn for that cell. -/
theorem generateCorrelatedRandoms_spec (numPaths numSteps : ℕ) (rho : ℝ)
    (us : ℕ → ℚ) (h : ∀ k, ∃ n, us (k + n) ≠ 0) :
    (generateCorrelatedRandoms us h numPaths numSteps rho).1.length = numPaths ∧
    (generateCorrelatedRandoms us h numPaths numSteps rho).2.length = numPaths ∧
    (∀ row ∈ (generateCorrelatedRandoms us h numPaths numSteps rho).1,
      row.length = numSteps) ∧
    (∀ row ∈ (generateCorrelatedRandoms us h numPaths numSteps rho).2,
      row.length = numSteps) ∧
    (∀ k, ∃ u v : ℚ, u ≠ 0 ∧ v ≠ 0 ∧
      (randomNormal us h k).1
        = Real.sqrt (-2 * Real.log (u : ℝ)) * Real.cos (2 * Real.pi * (v : ℝ))) ∧
    (∀ i t, i < numPaths → t < numSteps → ∃ m,
      ((generateCorrelatedRandoms us h numPaths numSteps rho).1.getD i []).getD t 0
          = (randomNormal us h m).1 ∧
      ((generateCorrelatedRandoms us h numPaths numSteps rho).2.getD i []).getD t 0
          = rho * (randomNormal us h m).1 +
              Real.sqrt (1 - rho * rho) *
                (randomNormal us h (randomNormal us h m).2).1) := by
  refine ⟨(corrRows_length us h rho numSteps numPaths 0).1,
    (corrRows_length us h rho numSteps numPaths 0).2,
    fun row hrow => corrRows_mem_length us h rho numSteps numPaths 0 row (Or.inl hrow),
    fun row hrow => corrRows_mem_length us h rho numSteps numPaths 0 row (Or.inr hrow),
    fun k => ?_, fun i t hi ht => ?_⟩
  · exact ⟨(nextNonzero us h k).1, (nextNonzero us h (nextNonzero us h k).2).1,
      Nat.find_spec (h k), Nat.find_spec (h (nextNonzero us h k).2), rfl⟩
  · obtain ⟨m, h1, h2⟩ := corrRows_row us h rho numSteps numPaths 0 i hi
    obtain ⟨m2, h3, h4⟩ := corrCells_cell us h rho numSteps m t ht
    exact ⟨m2, by rw [show (generateCorrelatedRandoms us h numPaths numSteps rho).1
        = (corrRows us h rho numSteps numPaths 0).1 from rfl, h1, h3],
      by rw [show (generateCorrelatedRandoms us h numPaths numSteps rho).2
        = (corrRows us h rho numSteps numPaths 0).2.1 from rfl, h2, h4]⟩

theorem halfStream_nonzero : ∀ k, ∃ n, halfStream (k + n) ≠ 0 :=
  fun _ => ⟨0, by norm_num [halfStream]⟩

/-- Witness for C5 at a concrete instance. -/
theorem generateCorrelatedRandoms_spec_witness :
    (∀ k, ∃ n, halfStream (k + n) ≠ 0) ∧
    ((generateCorrelatedRandoms halfStream halfStream_nonzero 1 1 0).1.length = 1 ∧
    (generateCorrelatedRandoms halfStream halfStream_nonzero 1 1 0).2.length = 1 ∧
    (∀ row ∈ (generateCorrelatedRandoms halfStream halfStream_nonzero 1 1 0).1,
      row.length = 1) ∧
    (∀ row ∈ (generateCorrelatedRandoms halfStream halfStream_nonzero 1 1 0).2,
      row.length = 1) ∧
    (∀ k, ∃ u v : ℚ, u ≠ 0 ∧ v ≠ 0 ∧
      (randomNormal halfStream halfStream_nonzero k).1
        = Real.sqrt (-2 * Real.log (u : ℝ)) * Real.cos (2 * Real.pi * (v : ℝ))) ∧
    (∀ i t, i < 1 → t < 1 → ∃ m,
      ((generateCorrelatedRandoms halfStream halfStream_nonzero 1 1 0).1.getD i []).getD t 0
          = (randomNormal halfStream halfStream_nonzero m).1 ∧
      ((generateCorrelatedRandoms halfStream halfStream_nonzero 1 1 0).2.getD i []).getD t 0
          = 0 * (randomNormal halfStream halfStream_nonzero m).1 +
              Real.sqrt (1 - 0 * 0) *
                (randomNormal halfStream halfStream_nonzero
                  (randomNormal halfStream halfStream_nonzero m).2).1)) :=
  ⟨halfStream_nonzero,
    generateCorrelatedRandoms_spec 1 1 0 halfStream halfStream_nonzero⟩

/-- Witness for C3 at a concrete instance. -/
theorem mcDrifts_formula_witness :
    ((0 : ℝ) < 50000 ∧ (0 : ℝ) < 150000 ∧ (0 : ℝ) < 50 ∧ (0 : ℝ) < 50 ∧ 1 ≤ 5) ∧
      (mcDrifts 50000 150000 0.6 50 50 0.4 5).1
          = Real.log (150000 / 50000) / ((5 : ℕ) : ℝ) + 0.5 * 0.6 ^ 2 ∧
      (mcDrifts 50000 150000 0.6 50 50 0.4 5).2
          = Real.log (50 / 50) / ((5 : ℕ) : ℝ) + 0.5 * 0.4 ^ 2 := by
  constructor
  · norm_num
  · exact mcDrifts_formula 50000 150000 0.6 50 50 0.4 5 (by norm_num) (by norm_num)
      (by norm_num) (by norm_num) (by norm_num)
